import Mathlib

/-!
Verification of the Genesis-Engine quantum-steganography core
(`quantum_stego/modes.py`, `quantum_stego/utils.py`,
`quantum_stego/quantum_stego/core.py`).

Conventions of the embedding:
* A Python `str` is modelled as the list of its code points (`List ℕ`);
  `ord` and `chr` are then the identity on code points.
* PIL images are modelled by `Img`: a width, a height, a pixel mode tag
  (`RGB` or `RGBA`) and a total pixel map.  `pixels[x, y] = ...` becomes a
  functional update, `r, g, b = pixels[x, y]` a projection.  Unpacking a
  4-tuple pixel into three variables raises `ValueError` in Python; the
  embedding returns the corresponding failure result in that case.
* Python bitwise `v & ~1` on a nonnegative int is embedded as `2 * (v / 2)`
  (clearing bit 0) and `v & ~0b11` as `4 * (v / 4)`; `|` is `Nat.lor`.
* The floating-point golden ratio `(1 + 5 ** 0.5) / 2` is the IEEE-754
  binary64 number whose exact value is `910872158600853 / 2 ^ 49`; the
  constants below carry the exact rational values of the doubles the
  source computes with.  For every operand `n ≤ 1020` that
  `calculate_checksum` can produce, `int(n * phi)` computed in binary64
  equals `n * 910872158600853 / 2 ^ 49` in exact arithmetic (the nearest
  integer is never closer than 4.5e-4, far above the 2⁻⁴² rounding error
  of the product), so the Nat-division model below is exact.
-/

/-- Pixel with ordered channels; for `RGB` images the `a` field is unused
    (a 3-tuple in Python). -/
structure Pixel where
  r : ℕ
  g : ℕ
  b : ℕ
  a : ℕ
deriving DecidableEq, Repr

/-- PIL pixel-format tag: the code only distinguishes `"RGBA"` from the rest. -/
inductive PixMode where
  | RGB : PixMode
  | RGBA : PixMode
deriving DecidableEq, Repr

/-- A PIL image: fixed dimensions, a pixel-format tag and a total pixel map. -/
structure Img where
  width : ℕ
  height : ℕ
  mode : PixMode
  px : ℕ → ℕ → Pixel

/-- `pixels[x, y] = p` : functional update of one pixel. -/
def setPix (img : Img) (x y : ℕ) (p : Pixel) : Img :=
  { img with px := fun u v => if u = x ∧ v = y then p else img.px u v }

/-- `img.convert("RGBA")` on an RGB image: new image, alpha channel 255. -/
def convertRGBA (img : Img) : Img :=
  { img with mode := PixMode.RGBA, px := fun x y => { img.px x y with a := 255 } }

/-- Structural helper for `natBits`: the first argument is fuel, always at
    least the number being converted, so the recursion on `n / 2` fits a
    structural scheme that the kernel can evaluate. -/
def natBitsAux : ℕ → ℕ → List ℕ
  | _, 0 => []
  | 0, _ + 1 => []
  | fuel + 1, n + 1 => natBitsAux fuel ((n + 1) / 2) ++ [(n + 1) % 2]

/-- Minimal big-endian binary digits of `n` (`format(n, 'b')` without padding;
    `format(0, 'b') = "0"` is the empty list here, the padding below restores
    the zero digits). Digits are the code's characters `'0'/'1'` read as 0/1. -/
def natBits (n : ℕ) : List ℕ := natBitsAux n n

/-- `format(n, '08b')`: big-endian binary digits of `n`, left-padded with
    zeros to at least 8 digits (more than 8 digits when `n ≥ 256`). -/
def pyFormat08 (n : ℕ) : List ℕ :=
  List.replicate (8 - (natBits n).length) 0 ++ natBits n

/-- `''.join(format(ord(c), '08b') for c in s)`. -/
def strBits (s : List ℕ) : List ℕ :=
  s.flatMap pyFormat08

/-- `int(bitstring, 2)`: big-endian bits to an unsigned value. -/
def byteVal (bits : List ℕ) : ℕ :=
  bits.foldl (fun n b => 2 * n + b) 0

/-- The decode loops `for i in range(0, len(binary_data), 8)` keeping only the
    8-character slices: bits are grouped into bytes in arrival order and a
    trailing group shorter than 8 bits is dropped. -/
def bitsToBytes : List ℕ → List ℕ
  | b0 :: b1 :: b2 :: b3 :: b4 :: b5 :: b6 :: b7 :: rest =>
      byteVal [b0, b1, b2, b3, b4, b5, b6, b7] :: bitsToBytes rest
  | _ => []

/-- Exact value of the binary64 number `(1 + 5 ** 0.5) / 2` as a fraction:
    910872158600853 / 2 ^ 49. -/
def phiNum : ℕ := 910872158600853

/-- Denominator 2 ^ 49 of the binary64 golden ratio. -/
def phiDen : ℕ := 562949953421312

/-- One step of `calculate_checksum`:
    `checksum = int((checksum + r + g + b) * phi) % 256`.
    Exact for all reachable operands (see the file header). -/
def chkStep (c s : ℕ) : ℕ :=
  (c + s) * phiNum / phiDen % 256

/-- `r + g + b` for one pixel. -/
def pixSum (p : Pixel) : ℕ := p.r + p.g + p.b

/-- `calculate_checksum` (utils.py lines 65-95).  The region is clamped with
    `x1 = max(0, min(x1, width-1))`, `y1 = max(0, min(y1, height-1))`,
    `x2 = max(x1, min(x2, width))`, `y2 = max(y1, min(y2, height))`; then the
    code loops `for x in range(x1, x2): for y in range(y1, y2)` — the outer
    loop is over `x`, the inner over `y`.  `img.getpixel` on an RGBA image
    yields a 4-tuple and the 3-way unpack raises, caught as `-1`; with an
    empty clamped range the loop body never runs and `0` is returned even
    then. -/
def calculate_checksum (img : Img) (region : ℤ × ℤ × ℤ × ℤ) : ℤ :=
  let w : ℤ := img.width
  let h : ℤ := img.height
  let x1 : ℤ := max 0 (min region.1 (w - 1))
  let y1 : ℤ := max 0 (min region.2.1 (h - 1))
  let x2 : ℤ := max x1 (min region.2.2.1 w)
  let y2 : ℤ := max y1 (min region.2.2.2 h)
  let xs : List ℕ := List.range' x1.toNat (x2 - x1).toNat
  let ys : List ℕ := List.range' y1.toNat (y2 - y1).toNat
  if img.mode = PixMode.RGBA ∧ xs ≠ [] ∧ ys ≠ [] then -1
  else
    (xs.foldl (fun c x => ys.foldl (fun c2 y => chkStep c2 (pixSum (img.px x y))) c) 0 : ℕ)

/-- The list of coordinates `calculate_checksum` reads, in visit order. -/
def checksumAccesses (img : Img) (region : ℤ × ℤ × ℤ × ℤ) : List (ℕ × ℕ) :=
  let w : ℤ := img.width
  let h : ℤ := img.height
  let x1 : ℤ := max 0 (min region.1 (w - 1))
  let y1 : ℤ := max 0 (min region.2.1 (h - 1))
  let x2 : ℤ := max x1 (min region.2.2.1 w)
  let y2 : ℤ := max y1 (min region.2.2.2 h)
  (List.range' x1.toNat (x2 - x1).toNat).flatMap fun x =>
    (List.range' y1.toNat (y2 - y1).toNat).map fun y => (x, y)

/-- Exact value of the binary64 literal `0.6` (`CHAOS_INTENSITY`, core.py
    line 34): 5404319552844595 / 2 ^ 53. -/
def CHAOS_INTENSITY : ℚ := 5404319552844595 / 9007199254740992

/-- The binary64 golden ratio as a rational. -/
def phiQ : ℚ := 910872158600853 / 562949953421312

/-- Exact value of the binary64 literal `0.8`. -/
def py08 : ℚ := 3602879701896397 / 4503599627370496

/-- Python `x % 1` for a nonnegative float: the fractional part. -/
def pyMod1 (q : ℚ) : ℚ := q - ⌊q⌋

/-- The three steganographic modes (modes.py lines 13-20). -/
inductive SteganoMode where
  | PSI : SteganoMode
  | PHI : SteganoMode
  | TAU : SteganoMode
deriving DecidableEq, Repr

/-- `QuantumSteganography._initialize_mode` (core.py lines 80-89):
    `chaos_factor = CHAOS_INTENSITY * phi % 1`, then `> 0.8 → PSI`,
    `> 0.5 → PHI`, else `TAU`.  The product is modelled in exact rational
    arithmetic; the binary64 product differs from it by less than 2⁻⁵² while
    both comparisons have margin above 0.17, so the branches taken agree
    with the source. -/
def initialize_mode : SteganoMode :=
  let chaos_factor := pyMod1 (CHAOS_INTENSITY * phiQ)
  if chaos_factor > py08 then SteganoMode.PSI
  else if chaos_factor > 1 / 2 then SteganoMode.PHI
  else SteganoMode.TAU

/-- `r = (r & ~1) | int(bit)` : clear the LSB of the red channel, OR in the bit. -/
def rUpdLSB (p : Pixel) (bit : ℕ) : Pixel :=
  { p with r := 2 * (p.r / 2) ||| bit }

/-- `a = (a & ~1) | int(bit)` : clear the LSB of the alpha channel, OR in the bit. -/
def aUpdLSB (p : Pixel) (bit : ℕ) : Pixel :=
  { p with a := 2 * (p.a / 2) ||| bit }

/-- `_encode_tau` per-pixel update: `r = (r & ~0b11) | (int(bit) << 1)` and
    `g = (g & ~0b1) | int(bit)`. -/
def tauUpd (p : Pixel) (bit : ℕ) : Pixel :=
  { p with r := 4 * (p.r / 4) ||| 2 * bit,
           g := 2 * (p.g / 2) ||| bit }

/-- The sequential embedding loop
    `for i, bit in enumerate(binary_data): x, y = i % width, i // width; ...`,
    with `i` the running index.  The `if i >= width * height: break` guard is
    applied by the caller as a `take`, which is equivalent because the index
    only grows. -/
def seqGo (upd : Pixel → ℕ → Pixel) (img : Img) (i : ℕ) : List ℕ → Img
  | [] => img
  | bit :: rest =>
      seqGo upd
        (setPix img (i % img.width) (i / img.width)
          (upd (img.px (i % img.width) (i / img.width)) bit))
        (i + 1) rest

/-- Sequential raster embedding of a bitstream, truncated at `width * height`. -/
def seqEncode (upd : Pixel → ℕ → Pixel) (img : Img) (bits : List ℕ) : Img :=
  seqGo upd img 0 (bits.take (img.width * img.height))

/-- Raster traversal `for y in range(height): for x in range(width)` reading
    one value per pixel.  The decode loops guard each append with
    `if len(binary_data) >= 512: break`, which is a `take 512` of this list
    (the `break` leaves the inner loop but the guard re-fires at once). -/
def rasterSeq (w h : ℕ) (f : ℕ → ℕ → ℕ) : List ℕ :=
  (List.range h).flatMap fun y => (List.range w).map fun x => f x y

namespace SteganoMode

/-- `_encode_psi` (modes.py lines 47-66).  When the incoming image is not
    RGBA, `img = img.convert("RGBA")` rebinds the local name to a fresh
    RGBA copy; every alpha-LSB write lands on that copy, the copy is
    dropped on return, and the caller's image — the second component
    here — is unchanged while the method still returns `True`.  On an
    RGBA image the writes are in place; all accesses are guarded by the
    `i >= width * height` break, so the `except` branch is unreachable. -/
def encode_psi (img : Img) (data_hash : List ℕ) : Bool × Img :=
  if img.mode = PixMode.RGBA then
    (true, seqEncode aUpdLSB img (strBits data_hash))
  else
    (true, img)

/-- The explicit-position loop of `_encode_phi`: each listed coordinate gets
    one bit in the red LSB; an out-of-range coordinate raises `IndexError`,
    caught as `return False` with the earlier writes kept. -/
def phiPosGo (img : Img) : List ((ℕ × ℕ) × ℕ) → Bool × Img
  | [] => (true, img)
  | (xy, bit) :: rest =>
      if xy.1 < img.width ∧ xy.2 < img.height then
        phiPosGo (setPix img xy.1 xy.2 (rUpdLSB (img.px xy.1 xy.2) bit)) rest
      else (false, img)

/-- The sequential fallback of `_encode_phi` (red-channel LSB, raster order).
    On an RGBA image the 3-way unpack `r, g, b = pixels[x, y]` raises on the
    first iteration (if there is one), caught as `return False`. -/
def encode_phi_seq (img : Img) (data_hash : List ℕ) : Bool × Img :=
  if img.mode = PixMode.RGBA ∧
      (strBits data_hash).take (img.width * img.height) ≠ [] then (false, img)
  else (true, seqEncode rUpdLSB img (strBits data_hash))

/-- `_encode_phi` (modes.py lines 68-97).  `if positions:` is false both for
    `None` and for an empty list, falling back to sequential embedding; with
    a non-empty list the enumeration stops at `len(positions)` bits, i.e. it
    processes `positions.zip bits`. -/
def encode_phi (img : Img) (data_hash : List ℕ)
    (positions : Option (List (ℕ × ℕ))) : Bool × Img :=
  match positions with
  | some ps =>
      if ps ≠ [] then
        if img.mode = PixMode.RGBA ∧ ps.zip (strBits data_hash) ≠ [] then (false, img)
        else phiPosGo img (ps.zip (strBits data_hash))
      else encode_phi_seq img data_hash
  | none => encode_phi_seq img data_hash

/-- `_encode_tau` (modes.py lines 99-116): multi-channel LSB in raster order;
    same RGBA-unpack failure as the φ path. -/
def encode_tau (img : Img) (data_hash : List ℕ) : Bool × Img :=
  if img.mode = PixMode.RGBA ∧
      (strBits data_hash).take (img.width * img.height) ≠ [] then (false, img)
  else (true, seqEncode tauUpd img (strBits data_hash))

/-- `SteganoMode.encode` dispatch (modes.py lines 22-34); `positions` is only
    forwarded to the φ variant. -/
def encode (m : SteganoMode) (img : Img) (data_hash : List ℕ)
    (positions : Option (List (ℕ × ℕ))) : Bool × Img :=
  match m with
  | PSI => encode_psi img data_hash
  | PHI => encode_phi img data_hash positions
  | TAU => encode_tau img data_hash

/-- `_decode_psi` (modes.py lines 118-143): non-RGBA images return `""`;
    otherwise the alpha LSBs of the first 512 pixels in raster order are
    grouped into bytes. -/
def decode_psi (img : Img) : List ℕ :=
  if img.mode = PixMode.RGBA then
    bitsToBytes ((rasterSeq img.width img.height fun x y => (img.px x y).a % 2).take 512)
  else []

/-- `_decode_phi` (modes.py lines 145-166): red LSBs of the first 512 pixels
    in raster order.  On an RGBA image the 3-way unpack raises on the first
    pixel and the `except` returns `""` (with zero pixels the loop body never
    runs and the result is `""` in either case). -/
def decode_phi (img : Img) : List ℕ :=
  if img.mode = PixMode.RGBA then []
  else bitsToBytes ((rasterSeq img.width img.height fun x y => (img.px x y).r % 2).take 512)

/-- `_decode_tau` (modes.py lines 168-189): bit 1 of the red channel,
    `(r >> 1) & 1`, of the first 512 pixels in raster order. -/
def decode_tau (img : Img) : List ℕ :=
  if img.mode = PixMode.RGBA then []
  else bitsToBytes ((rasterSeq img.width img.height fun x y => (img.px x y).r / 2 % 2).take 512)

/-- `SteganoMode.decode` dispatch (modes.py lines 36-45). -/
def decode (m : SteganoMode) (img : Img) : List ℕ :=
  match m with
  | PSI => decode_psi img
  | PHI => decode_phi img
  | TAU => decode_tau img

end SteganoMode

/-- `embed_checksum`'s write loop (utils.py lines 97-115): bit `i` of
    `format(checksum, '08b')` goes to the red LSB of pixel
    `(i % 50, i // 50)`; an out-of-range access raises, and the bare
    `except: pass` keeps the writes made so far. -/
def embedGo (img : Img) (i : ℕ) : List ℕ → Img
  | [] => img
  | bit :: rest =>
      if img.mode = PixMode.RGBA then img
      else if i % 50 < img.width ∧ i / 50 < img.height then
        embedGo (setPix img (i % 50) (i / 50) (rUpdLSB (img.px (i % 50) (i / 50)) bit))
          (i + 1) rest
      else img

/-- `embed_checksum` (utils.py lines 97-115). -/
def embed_checksum (img : Img) (checksum : ℕ) : Img :=
  embedGo img 0 (pyFormat08 checksum)

/-- `extract_checksum` (utils.py lines 117-138): reads the red LSB of pixels
    `(i % 50, i // 50)` for `i < 8` and reassembles with `int(binary, 2)`;
    any failed access (width < 8 or height < 1), or the 3-way unpack on an
    RGBA image, is caught as `-1`. -/
def extract_checksum (img : Img) : ℤ :=
  if img.mode = PixMode.RGBA then -1
  else if 8 ≤ img.width ∧ 1 ≤ img.height then
    (byteVal ((List.range 8).map fun i => (img.px (i % 50) (i / 50)).r % 2) : ℤ)
  else -1

/-- Modelled from the spec: C6 asserts the checksum fold visits the clamped
    region "in row-major order (rows in increasing y, x varying fastest
    within a row)"; this is that reading, with the same clamps and step. -/
def checksumRowMajorSpec (img : Img) (region : ℤ × ℤ × ℤ × ℤ) : ℤ :=
  let w : ℤ := img.width
  let h : ℤ := img.height
  let x1 : ℤ := max 0 (min region.1 (w - 1))
  let y1 : ℤ := max 0 (min region.2.1 (h - 1))
  let x2 : ℤ := max x1 (min region.2.2.1 w)
  let y2 : ℤ := max y1 (min region.2.2.2 h)
  let xs : List ℕ := List.range' x1.toNat (x2 - x1).toNat
  let ys : List ℕ := List.range' y1.toNat (y2 - y1).toNat
  if img.mode = PixMode.RGBA ∧ xs ≠ [] ∧ ys ≠ [] then -1
  else
    (ys.foldl (fun c y => xs.foldl (fun c2 x => chkStep c2 (pixSum (img.px x y))) c) 0 : ℕ)

/-- Flat single-pass specification of the checksum: fold `chkStep` from 0
    over the clamped region's pixels enumerated column-major (x outer,
    y inner), the order `calculate_checksum`'s nested loops realise. -/
def checksumColumnSpec (img : Img) (region : ℤ × ℤ × ℤ × ℤ) : ℤ :=
  let w : ℤ := img.width
  let h : ℤ := img.height
  let x1 : ℤ := max 0 (min region.1 (w - 1))
  let y1 : ℤ := max 0 (min region.2.1 (h - 1))
  let x2 : ℤ := max x1 (min region.2.2.1 w)
  let y2 : ℤ := max y1 (min region.2.2.2 h)
  let xs : List ℕ := List.range' x1.toNat (x2 - x1).toNat
  let ys : List ℕ := List.range' y1.toNat (y2 - y1).toNat
  if img.mode = PixMode.RGBA ∧ xs ≠ [] ∧ ys ≠ [] then -1
  else
    ((checksumAccesses img region).foldl
      (fun c xy => chkStep c (pixSum (img.px xy.1 xy.2))) 0 : ℕ)

/-- `Image.open(...).convert("RGB")` / `Image.fromarray(np.uint8(...))`:
    the result is an RGB image. -/
def toRGB (img : Img) : Img := { img with mode := PixMode.RGB }

/-- Outcomes of the external collaborators `QuantumSteganography.encode`
    calls, in call order; each may raise (error code) or return a value.
    `dataHash` stands for `generate_pq_hash(file_type)`, whose random salt
    makes it an input here. -/
structure EncodeOracle where
  validateContent : Except ℕ Bool
  loadImage : Except ℕ Img
  quantumTransform : Img → Except ℕ Img
  superposition : Except ℕ Unit
  analyzePattern : Except ℕ Unit
  dataHash : List ℕ
  save : Img → Except ℕ Unit

/-- The body of `QuantumSteganography.encode`'s main `try:` block (core.py
    lines 108-133): load and convert to RGB, quantum transform (the result
    re-built by `Image.fromarray` is again RGB), superposition bookkeeping,
    temporal analysis, then `self.mode.encode(img, generate_pq_hash(...))`;
    on success the image is saved.  Returns the success flag and the image
    passed to `img.save`, or the first uncaught exception. -/
def encodeTry (o : EncodeOracle) (m : SteganoMode) : Except ℕ (Bool × Option Img) :=
  match o.loadImage with
  | Except.error e => Except.error e
  | Except.ok img0 =>
    match o.quantumTransform (toRGB img0) with
    | Except.error e => Except.error e
    | Except.ok img1 =>
      match o.superposition with
      | Except.error e => Except.error e
      | Except.ok _ =>
        match o.analyzePattern with
        | Except.error e => Except.error e
        | Except.ok _ =>
          if (SteganoMode.encode m (toRGB img1) o.dataHash none).1 then
            match o.save (SteganoMode.encode m (toRGB img1) o.dataHash none).2 with
            | Except.error e => Except.error e
            | Except.ok _ =>
              Except.ok ((SteganoMode.encode m (toRGB img1) o.dataHash none).1,
                some (SteganoMode.encode m (toRGB img1) o.dataHash none).2)
          else
            Except.ok ((SteganoMode.encode m (toRGB img1) o.dataHash none).1, none)

/-- Public `QuantumSteganography.encode` (core.py lines 91-146): the ethical
    gate has its own `try/except` returning `False`, and the main body's
    `except` clauses all return `False`. -/
def pubEncode (o : EncodeOracle) (m : SteganoMode) (ethical_check : Bool) : Bool :=
  let run : Bool :=
    match encodeTry o m with
    | Except.ok r => r.1
    | Except.error _ => false
  if ethical_check then
    match o.validateContent with
    | Except.error _ => false
    | Except.ok false => false
    | Except.ok true => run
  else run

/-- Outcomes of the collaborators `QuantumSteganography.decode` calls.
    `hashFn` stands for `generate_pq_hash` applied to each catalog key. -/
structure DecodeOracle where
  loadImage : Except ℕ Img
  validatePattern : Except ℕ Bool
  quantumTransform : Img → Except ℕ Img
  hashFn : List ℕ → List ℕ

/-- `"unknown"` as code points. -/
def unknownStr : List ℕ := "unknown".data.map Char.toNat

/-- The keys of `FILE_TYPE_MAP` (core.py lines 36-41) in insertion order. -/
def fileTypeKeys : List (List ℕ) :=
  ["image/png", "text/plain", "audio/mpeg", "video/mp4"].map fun s =>
    s.data.map Char.toNat

/-- The tail of the decode body after the temporal gate: inverse transform,
    `self.mode.decode(img)`, and the catalog lookup. -/
def decodeTail (d : DecodeOracle) (img0 : Img) (m : SteganoMode) : Except ℕ (List ℕ) :=
  match d.quantumTransform (toRGB img0) with
  | Except.error e => Except.error e
  | Except.ok img1 =>
    Except.ok ((fileTypeKeys.find? fun ft =>
      d.hashFn ft == SteganoMode.decode m (toRGB img1)).getD unknownStr)

/-- The body of `QuantumSteganography.decode`'s `try:` block (core.py lines
    152-176): load and convert to RGB, optional temporal validation (a
    `False` verdict raises `QuantumStateError`, modelled as error code 0),
    then the decode tail: the first catalog key whose hash equals the decoded
    string, else `"unknown"`. -/
def decodeTry (d : DecodeOracle) (validate_temporal : Bool) (m : SteganoMode) :
    Except ℕ (List ℕ) :=
  match d.loadImage with
  | Except.error e => Except.error e
  | Except.ok img0 =>
    if validate_temporal then
      match d.validatePattern with
      | Except.error e => Except.error e
      | Except.ok false => Except.error 0
      | Except.ok true => decodeTail d img0 m
    else decodeTail d img0 m

/-- Public `QuantumSteganography.decode` (core.py lines 148-183): every
    exception becomes the sentinel `"unknown"`. -/
def pubDecode (d : DecodeOracle) (validate_temporal : Bool) (m : SteganoMode) : List ℕ :=
  match decodeTry d validate_temporal m with
  | Except.ok s => s
  | Except.error _ => unknownStr

/-- Concrete 2x2 RGB image distinguishing the two checksum visit orders. -/
def imgC6 : Img where
  width := 2
  height := 2
  mode := PixMode.RGB
  px := fun x y =>
    if x = 0 ∧ y = 0 then ⟨1, 2, 3, 0⟩
    else if x = 1 ∧ y = 0 then ⟨10, 20, 30, 0⟩
    else if x = 0 ∧ y = 1 then ⟨100, 0, 0, 0⟩
    else ⟨5, 5, 5, 0⟩

/-- Concrete all-zero 512x1 RGB image (capacity exactly 512 bit-positions). -/
def imgZ512 : Img where
  width := 512
  height := 1
  mode := PixMode.RGB
  px := fun _ _ => ⟨0, 0, 0, 0⟩

/-- Concrete all-zero 512x1 RGBA image. -/
def imgA512 : Img where
  width := 512
  height := 1
  mode := PixMode.RGBA
  px := fun _ _ => ⟨0, 0, 0, 0⟩

/-- Concrete 1x1 RGB image whose red channel has bit 0 set. -/
def img1x1 : Img where
  width := 1
  height := 1
  mode := PixMode.RGB
  px := fun _ _ => ⟨3, 0, 0, 0⟩

/-- Concrete 8x1 RGB image with odd red channels. -/
def img8x1 : Img where
  width := 8
  height := 1
  mode := PixMode.RGB
  px := fun _ _ => ⟨7, 9, 11, 0⟩

/-- Concrete 3x2 RGB image for the C7 witness. -/
def img3x2 : Img where
  width := 3
  height := 2
  mode := PixMode.RGB
  px := fun x y => ⟨x + 1, y + 2, 3, 0⟩

/-- `img3x2` with every pixel outside the 3x2 bounds replaced, to witness
    that the checksum only depends on the clamped region. -/
def img3x2B : Img :=
  { img3x2 with px := fun x y => if x < 3 ∧ y < 2 then img3x2.px x y else ⟨9, 9, 9, 9⟩ }

/-- A concrete 64-byte payload (64 copies of code point 97). -/
def payload64 : List ℕ := List.replicate 64 97

/-- A concrete encode-oracle whose image load raises (error code 7). -/
def encFailOracle : EncodeOracle where
  validateContent := Except.ok true
  loadImage := Except.error 7
  quantumTransform := fun i => Except.ok i
  superposition := Except.ok ()
  analyzePattern := Except.ok ()
  dataHash := []
  save := fun _ => Except.ok ()

/-- A concrete encode-oracle where every collaborator succeeds. -/
def encOkOracle : EncodeOracle where
  validateContent := Except.ok true
  loadImage := Except.ok img1x1
  quantumTransform := fun i => Except.ok i
  superposition := Except.ok ()
  analyzePattern := Except.ok ()
  dataHash := []
  save := fun _ => Except.ok ()

/-- A concrete decode-oracle whose image load raises (error code 7). -/
def decFailOracle : DecodeOracle where
  loadImage := Except.error 7
  validatePattern := Except.ok true
  quantumTransform := fun i => Except.ok i
  hashFn := fun _ => []

/-- C10: the mode-selection formula is a pure constant function: the
    chaos factor 0.6·φ mod 1 ≈ 0.9708 exceeds 0.8, so every codec
    construction selects the superposition mode ψ. -/
theorem claim_C10_mode_selection :
    initialize_mode = SteganoMode.PSI ∧
    (97 / 100 : ℚ) < pyMod1 (CHAOS_INTENSITY * phiQ) ∧
    pyMod1 (CHAOS_INTENSITY * phiQ) < 972 / 1000 ∧
    pyMod1 (CHAOS_INTENSITY * phiQ) > py08 := by
  have hfloor : ⌊CHAOS_INTENSITY * phiQ⌋ = 0 := by
    rw [Int.floor_eq_zero_iff]
    constructor <;> · simp only [CHAOS_INTENSITY, phiQ]; norm_num
  have hmod : pyMod1 (CHAOS_INTENSITY * phiQ) = CHAOS_INTENSITY * phiQ := by
    simp [pyMod1, hfloor]
  refine ⟨?_, ?_, ?_, ?_⟩
  · unfold initialize_mode
    rw [if_pos]
    rw [hmod]
    simp only [CHAOS_INTENSITY, phiQ, py08]
    norm_num
  · rw [hmod]; simp only [CHAOS_INTENSITY, phiQ]; norm_num
  · rw [hmod]; simp only [CHAOS_INTENSITY, phiQ]; norm_num
  · rw [hmod]; simp only [CHAOS_INTENSITY, phiQ, py08]; norm_num

/-! ### Helper lemmas -/

theorem two_mul_lor_bit (m b : ℕ) (hb : b ≤ 1) : 2 * m ||| b = 2 * m + b := by
  interval_cases b
  · simp
  · apply Nat.eq_of_testBit_eq
    intro i
    cases i with
    | zero =>
      have h1 : 2 * m % 2 = 0 := by omega
      have h2 : (2 * m + 1) % 2 = 1 := by omega
      simp [Nat.testBit_lor, Nat.testBit_zero, h1, h2]
    | succ j =>
      have h1 : 2 * m / 2 = m := by omega
      have h2 : (2 * m + 1) / 2 = m := by omega
      have h3 : (1 : ℕ) / 2 = 0 := by norm_num
      simp only [Nat.testBit_lor]
      simp [Nat.testBit_succ, h1, h2, h3, Nat.zero_testBit]

theorem four_mul_lor_twice (m b : ℕ) (hb : b ≤ 1) :
    4 * m ||| 2 * b = 4 * m + 2 * b := by
  interval_cases b
  · simp
  · have h21 : (2 : ℕ) * 1 = 2 := rfl
    rw [h21]
    apply Nat.eq_of_testBit_eq
    intro i
    match i with
    | 0 =>
      have h1 : 4 * m % 2 = 0 := by omega
      have h2 : (4 * m + 2) % 2 = 0 := by omega
      have h3 : (2 : ℕ) % 2 = 0 := by norm_num
      simp [Nat.testBit_lor, Nat.testBit_zero, h1, h2, h3]
    | 1 =>
      have h1 : 4 * m / 2 = 2 * m := by omega
      have h2 : (4 * m + 2) / 2 = 2 * m + 1 := by omega
      have h3 : (2 : ℕ) / 2 = 1 := by norm_num
      have h4 : 2 * m % 2 = 0 := by omega
      have h5 : (2 * m + 1) % 2 = 1 := by omega
      simp only [Nat.testBit_lor]
      simp [Nat.testBit_succ, Nat.testBit_zero, h1, h2, h3, h4, h5]
    | (j + 2) =>
      have h1 : 4 * m / 2 / 2 = m := by omega
      have h2 : (4 * m + 2) / 2 / 2 = m := by omega
      have h3 : (2 : ℕ) / 2 / 2 = 0 := by norm_num
      have h4 : (4 * m + 2) / 2 = 2 * m + 1 := by omega
      have h5 : (2 * m + 1) / 2 = m := by omega
      have h6 : 4 * m / 2 = 2 * m := by omega
      have h7 : 2 * m / 2 = m := by omega
      have h8 : (2 : ℕ) / 2 = 1 := by norm_num
      have h9 : (1 : ℕ) / 2 = 0 := by norm_num
      simp only [Nat.testBit_lor]
      simp [Nat.testBit_succ, h4, h5, h6, h7, h8, h9, Nat.zero_testBit]

theorem rUpdLSB_r (p : Pixel) (b : ℕ) (hb : b ≤ 1) :
    (rUpdLSB p b).r = 2 * (p.r / 2) + b := by
  simp [rUpdLSB, two_mul_lor_bit _ b hb]

theorem rUpdLSB_g (p : Pixel) (b : ℕ) : (rUpdLSB p b).g = p.g := rfl

theorem rUpdLSB_b (p : Pixel) (b : ℕ) : (rUpdLSB p b).b = p.b := rfl

theorem rUpdLSB_a (p : Pixel) (b : ℕ) : (rUpdLSB p b).a = p.a := rfl

theorem aUpdLSB_a (p : Pixel) (b : ℕ) (hb : b ≤ 1) :
    (aUpdLSB p b).a = 2 * (p.a / 2) + b := by
  simp [aUpdLSB, two_mul_lor_bit _ b hb]

theorem aUpdLSB_r (p : Pixel) (b : ℕ) : (aUpdLSB p b).r = p.r := rfl

theorem tauUpd_r (p : Pixel) (b : ℕ) (hb : b ≤ 1) :
    (tauUpd p b).r = 4 * (p.r / 4) + 2 * b := by
  simp [tauUpd, four_mul_lor_twice _ b hb]

theorem tauUpd_g (p : Pixel) (b : ℕ) (hb : b ≤ 1) :
    (tauUpd p b).g = 2 * (p.g / 2) + b := by
  simp [tauUpd, two_mul_lor_bit _ b hb]

theorem tauUpd_b (p : Pixel) (b : ℕ) : (tauUpd p b).b = p.b := rfl

theorem tauUpd_a (p : Pixel) (b : ℕ) : (tauUpd p b).a = p.a := rfl

theorem byteVal_append_singleton (l : List ℕ) (d : ℕ) :
    byteVal (l ++ [d]) = 2 * byteVal l + d := by
  simp [byteVal, List.foldl_append]

theorem natBitsAux_fuel (n : ℕ) :
    ∀ f1 f2, n ≤ f1 → n ≤ f2 → natBitsAux f1 n = natBitsAux f2 n := by
  induction n using Nat.strong_induction_on with
  | _ n ih =>
    match n with
    | 0 => intro f1 f2 _ _; cases f1 <;> cases f2 <;> rfl
    | k + 1 =>
      intro f1 f2 h1 h2
      obtain ⟨g1, rfl⟩ : ∃ g1, f1 = g1 + 1 := ⟨f1 - 1, by omega⟩
      obtain ⟨g2, rfl⟩ : ∃ g2, f2 = g2 + 1 := ⟨f2 - 1, by omega⟩
      rw [natBitsAux, natBitsAux]
      have hlt : (k + 1) / 2 < k + 1 := Nat.div_lt_self (Nat.succ_pos k) (by norm_num)
      rw [ih ((k + 1) / 2) hlt g1 ((k + 1) / 2) (by omega) (le_refl _),
        ih ((k + 1) / 2) hlt g2 ((k + 1) / 2) (by omega) (le_refl _)]

theorem natBits_succ (k : ℕ) :
    natBits (k + 1) = natBits ((k + 1) / 2) ++ [(k + 1) % 2] := by
  show natBitsAux (k + 1) (k + 1) = natBitsAux ((k + 1) / 2) ((k + 1) / 2) ++ _
  rw [natBitsAux]
  rw [natBitsAux_fuel ((k + 1) / 2) k ((k + 1) / 2)
    (by omega) (le_refl _)]

theorem byteVal_natBits (n : ℕ) : byteVal (natBits n) = n := by
  induction n using Nat.strong_induction_on with
  | _ n ih =>
    match n with
    | 0 => simp [natBits, natBitsAux, byteVal]
    | k + 1 =>
      rw [natBits_succ, byteVal_append_singleton,
        ih ((k + 1) / 2) (Nat.div_lt_self (Nat.succ_pos k) (by norm_num))]
      omega

theorem byteVal_replicate_zero (k : ℕ) (l : List ℕ) :
    byteVal (List.replicate k 0 ++ l) = byteVal l := by
  induction k with
  | zero => simp
  | succ j ih => simpa [byteVal, List.replicate_succ] using ih

theorem byteVal_pyFormat08 (n : ℕ) : byteVal (pyFormat08 n) = n := by
  rw [pyFormat08, byteVal_replicate_zero, byteVal_natBits]

theorem natBits_le_one (n : ℕ) : ∀ b ∈ natBits n, b ≤ 1 := by
  induction n using Nat.strong_induction_on with
  | _ n ih =>
    match n with
    | 0 => simp [natBits, natBitsAux]
    | k + 1 =>
      rw [natBits_succ]
      intro b hb
      rcases List.mem_append.1 hb with h | h
      · exact ih ((k + 1) / 2) (Nat.div_lt_self (Nat.succ_pos k) (by norm_num)) b h
      · simp at h
        omega

theorem natBits_length_le (n k : ℕ) (h : n < 2 ^ k) : (natBits n).length ≤ k := by
  induction n using Nat.strong_induction_on generalizing k with
  | _ n ih =>
    match n with
    | 0 => simp [natBits, natBitsAux]
    | m + 1 =>
      rw [natBits_succ]
      have hk : k ≠ 0 := by
        rintro rfl
        simp at h
      obtain ⟨j, rfl⟩ : ∃ j, k = j + 1 := ⟨k - 1, by omega⟩
      have hdiv : (m + 1) / 2 < 2 ^ j := by
        have := Nat.pow_succ 2 j
        omega
      have := ih ((m + 1) / 2) (Nat.div_lt_self (Nat.succ_pos m) (by norm_num)) j hdiv
      simp only [List.length_append, List.length_cons, List.length_nil]
      omega

theorem pyFormat08_length (n : ℕ) (hn : n < 256) : (pyFormat08 n).length = 8 := by
  have h := natBits_length_le n 8 (by norm_num; omega)
  simp [pyFormat08]
  omega

theorem pyFormat08_le_one (n : ℕ) : ∀ b ∈ pyFormat08 n, b ≤ 1 := by
  intro b hb
  rcases List.mem_append.1 hb with h | h
  · simp [List.eq_of_mem_replicate h]
  · exact natBits_le_one n b h

theorem strBits_le_one (s : List ℕ) : ∀ b ∈ strBits s, b ≤ 1 := by
  intro b hb
  rw [strBits, List.mem_flatMap] at hb
  obtain ⟨c, _, hc⟩ := hb
  exact pyFormat08_le_one c b hc

theorem strBits_length (s : List ℕ) (h : ∀ c ∈ s, c < 256) :
    (strBits s).length = 8 * s.length := by
  induction s with
  | nil => simp [strBits]
  | cons c rest ih =>
    have h1 : (pyFormat08 c).length = 8 := pyFormat08_length c (h c (by simp))
    have h2 := ih fun x hx => h x (by simp [hx])
    simp only [strBits, List.flatMap_cons, List.length_append, List.length_cons] at h2 ⊢
    rw [h1, h2]
    ring

theorem exists_eight (l : List ℕ) (h : l.length = 8) :
    ∃ a0 a1 a2 a3 a4 a5 a6 a7 : ℕ, l = [a0, a1, a2, a3, a4, a5, a6, a7] := by
  rcases l with _ | ⟨a0, _ | ⟨a1, _ | ⟨a2, _ | ⟨a3, _ | ⟨a4, _ | ⟨a5, _ | ⟨a6, _ | ⟨a7, rest⟩⟩⟩⟩⟩⟩⟩⟩ <;>
    simp_all

theorem bitsToBytes_append8 (l rest : List ℕ) (hl : l.length = 8) :
    bitsToBytes (l ++ rest) = byteVal l :: bitsToBytes rest := by
  obtain ⟨a0, a1, a2, a3, a4, a5, a6, a7, rfl⟩ := exists_eight l hl
  rfl

theorem bitsToBytes_strBits (s : List ℕ) (h : ∀ c ∈ s, c < 256) :
    bitsToBytes (strBits s) = s := by
  induction s with
  | nil => simp [strBits, bitsToBytes]
  | cons c rest ih =>
    have hc : c < 256 := h c (by simp)
    rw [strBits, List.flatMap_cons]
    rw [bitsToBytes_append8 _ _ (pyFormat08_length c hc), byteVal_pyFormat08]
    exact congrArg (c :: ·) (ih fun x hx => h x (by simp [hx]))

theorem map_getD_range (l : List ℕ) (d : ℕ) :
    (List.range l.length).map (fun i => l.getD i d) = l := by
  induction l with
  | nil => simp
  | cons a rest ih =>
    rw [List.length_cons, List.range_succ_eq_map, List.map_cons, List.map_map]
    have hf : ((fun i => (a :: rest).getD i d) ∘ Nat.succ) = fun i => rest.getD i d := by
      funext i
      rfl
    rw [hf, ih]
    rfl

theorem foldl_flatMap_eq {α β γ : Type} (xs : List α) (g : α → List β)
    (f : γ → β → γ) (c : γ) :
    (xs.flatMap g).foldl f c = xs.foldl (fun acc x => (g x).foldl f acc) c := by
  induction xs generalizing c with
  | nil => rfl
  | cons a rest ih => rw [List.flatMap_cons, List.foldl_append, List.foldl_cons, ih]

theorem foldl_congrOn {α γ : Type} (l : List α) (f g : γ → α → γ) (c : γ)
    (h : ∀ a ∈ l, ∀ acc, f acc a = g acc a) : l.foldl f c = l.foldl g c := by
  induction l generalizing c with
  | nil => rfl
  | cons a rest ih =>
    rw [List.foldl_cons, List.foldl_cons, h a (by simp), ih]
    intro x hx acc
    exact h x (by simp [hx]) acc

theorem seqGo_dims (upd : Pixel → ℕ → Pixel) :
    ∀ (l : List ℕ) (img : Img) (i : ℕ),
      (seqGo upd img i l).width = img.width ∧
      (seqGo upd img i l).height = img.height ∧
      (seqGo upd img i l).mode = img.mode := by
  intro l
  induction l with
  | nil => intro img i; exact ⟨rfl, rfl, rfl⟩
  | cons b rest ih => intro img i; rw [seqGo]; exact ih _ _

theorem seqGo_px (upd : Pixel → ℕ → Pixel) :
    ∀ (l : List ℕ) (img : Img) (i x y : ℕ), x < img.width →
      (seqGo upd img i l).px x y =
        if i ≤ y * img.width + x ∧ y * img.width + x < i + l.length then
          upd (img.px x y) (l.getD (y * img.width + x - i) 0)
        else img.px x y := by
  intro l
  induction l with
  | nil =>
    intro img i x y hx
    rw [seqGo, if_neg]
    simp only [List.length_nil]
    omega
  | cons b rest ih =>
    intro img i x y hx
    have hw : 0 < img.width := by omega
    rw [seqGo]
    have hxw : x < (setPix img (i % img.width) (i / img.width)
        (upd (img.px (i % img.width) (i / img.width)) b)).width := hx
    rw [ih _ (i + 1) x y hxw]
    simp only [setPix, List.length_cons]
    by_cases ht : y * img.width + x = i
    · have hx1 : i % img.width = x := by
        rw [← ht, show y * img.width + x = img.width * y + x by ring,
          Nat.mul_add_mod, Nat.mod_eq_of_lt hx]
      have hy1 : i / img.width = y := by
        rw [← ht, show y * img.width + x = img.width * y + x by ring,
          Nat.mul_add_div hw, Nat.div_eq_of_lt hx, add_zero]
      rw [if_neg (show ¬(i + 1 ≤ y * img.width + x ∧
        y * img.width + x < i + 1 + rest.length) by omega)]
      simp only [hx1, hy1, eq_self_iff_true, and_self, if_true]
      rw [if_pos (show i ≤ y * img.width + x ∧
          y * img.width + x < i + (rest.length + 1) by omega)]
      have h0 : y * img.width + x - i = 0 := by omega
      rw [h0]
      rfl
    · have hne : ¬(x = i % img.width ∧ y = i / img.width) := by
        rintro ⟨rfl, rfl⟩
        apply ht
        rw [show (i / img.width) * img.width + i % img.width
            = img.width * (i / img.width) + i % img.width by ring]
        exact Nat.div_add_mod i img.width
      simp only [if_neg hne]
      by_cases hc : i + 1 ≤ y * img.width + x ∧ y * img.width + x < i + 1 + rest.length
      · rw [if_pos hc, if_pos (by omega)]
        have h9 : y * img.width + x - i = (y * img.width + x - (i + 1)) + 1 := by omega
        rw [h9]
        rfl
      · rw [if_neg hc, if_neg (by omega)]

theorem embedGo_dims :
    ∀ (l : List ℕ) (img : Img) (i : ℕ),
      (embedGo img i l).width = img.width ∧
      (embedGo img i l).height = img.height ∧
      (embedGo img i l).mode = img.mode := by
  intro l
  induction l with
  | nil => intro img i; exact ⟨rfl, rfl, rfl⟩
  | cons b rest ih =>
    intro img i
    rw [embedGo]
    by_cases h1 : img.mode = PixMode.RGBA
    · rw [if_pos h1]; exact ⟨rfl, rfl, rfl⟩
    · rw [if_neg h1]
      by_cases h2 : i % 50 < img.width ∧ i / 50 < img.height
      · rw [if_pos h2]; exact ih _ _
      · rw [if_neg h2]; exact ⟨rfl, rfl, rfl⟩

theorem embedGo_px :
    ∀ (l : List ℕ) (img : Img) (i x y : ℕ),
      img.mode ≠ PixMode.RGBA → x < 50 →
      (∀ j, j < l.length → (i + j) % 50 < img.width ∧ (i + j) / 50 < img.height) →
      (embedGo img i l).px x y =
        if i ≤ y * 50 + x ∧ y * 50 + x < i + l.length then
          rUpdLSB (img.px x y) (l.getD (y * 50 + x - i) 0)
        else img.px x y := by
  intro l
  induction l with
  | nil =>
    intro img i x y _ hx _
    rw [embedGo, if_neg]
    simp only [List.length_nil]
    omega
  | cons b rest ih =>
    intro img i x y hm hx hin
    have hb0 : (i + 0) % 50 < img.width ∧ (i + 0) / 50 < img.height := by
      apply hin
      simp
    rw [embedGo, if_neg hm, if_pos (by simpa using hb0)]
    have hmw : (setPix img (i % 50) (i / 50)
        (rUpdLSB (img.px (i % 50) (i / 50)) b)).mode ≠ PixMode.RGBA := hm
    rw [ih _ (i + 1) x y hmw hx (by
      intro j hj
      have h10 := hin (j + 1) (by simp only [List.length_cons]; omega)
      have h11 : i + 1 + j = i + (j + 1) := by omega
      rw [h11]
      exact h10)]
    simp only [setPix, List.length_cons]
    by_cases ht : y * 50 + x = i
    · have hx1 : i % 50 = x := by
        rw [← ht, show y * 50 + x = 50 * y + x by ring,
          Nat.mul_add_mod, Nat.mod_eq_of_lt hx]
      have hy1 : i / 50 = y := by
        rw [← ht, show y * 50 + x = 50 * y + x by ring,
          Nat.mul_add_div (by norm_num), Nat.div_eq_of_lt hx, add_zero]
      rw [if_neg (show ¬(i + 1 ≤ y * 50 + x ∧
        y * 50 + x < i + 1 + rest.length) by omega)]
      simp only [hx1, hy1, eq_self_iff_true, and_self, if_true]
      rw [if_pos (show i ≤ y * 50 + x ∧ y * 50 + x < i + (rest.length + 1) by omega)]
      have h0 : y * 50 + x - i = 0 := by omega
      rw [h0]
      rfl
    · have hne : ¬(x = i % 50 ∧ y = i / 50) := by
        rintro ⟨rfl, rfl⟩
        apply ht
        rw [show (i / 50) * 50 + i % 50 = 50 * (i / 50) + i % 50 by ring]
        exact Nat.div_add_mod i 50
      simp only [if_neg hne]
      by_cases hc : i + 1 ≤ y * 50 + x ∧ y * 50 + x < i + 1 + rest.length
      · rw [if_pos hc, if_pos (by omega)]
        have h9 : y * 50 + x - i = (y * 50 + x - (i + 1)) + 1 := by omega
        rw [h9]
        rfl
      · rw [if_neg hc, if_neg (by omega)]

theorem rasterSeq_eq (w h : ℕ) (f : ℕ → ℕ → ℕ) :
    rasterSeq w h f = (List.range (w * h)).map fun i => f (i % w) (i / w) := by
  induction h with
  | zero => simp [rasterSeq]
  | succ k ih =>
    rw [rasterSeq, List.range_succ, List.flatMap_append,
      show ((List.range k).flatMap fun y => (List.range w).map fun x => f x y)
        = rasterSeq w k f from rfl, ih,
      Nat.mul_succ, List.range_add, List.map_append, List.map_map]
    congr 1
    simp only [List.flatMap_cons, List.flatMap_nil, List.append_nil]
    apply List.map_congr_left
    intro x hxm
    have hx : x < w := List.mem_range.1 hxm
    have hw : 0 < w := by omega
    simp only [Function.comp]
    rw [Nat.mul_add_mod, Nat.mod_eq_of_lt hx,
      Nat.mul_add_div hw, Nat.div_eq_of_lt hx, add_zero]

theorem take_map_range (n k : ℕ) (f : ℕ → ℕ) (h : k ≤ n) :
    ((List.range n).map f).take k = (List.range k).map f := by
  rw [← List.map_take, List.take_range, min_eq_left h]

/-- C6 counterexample: the claim says `calculate_checksum` visits the clamped
    region in row-major order (y outer, x inner); on this 2x2 image the
    function disagrees with that reading, because its loops put `x` outside
    and `y` inside. -/
theorem claim_C6_counterexample :
    calculate_checksum imgC6 (0, 0, 2, 2) = 226 ∧
    checksumRowMajorSpec imgC6 (0, 0, 2, 2) = 161 ∧
    calculate_checksum imgC6 (0, 0, 2, 2) ≠ checksumRowMajorSpec imgC6 (0, 0, 2, 2) := by
  refine ⟨?_, ?_, ?_⟩ <;> decide

/-- C6 (amended): `calculate_checksum` starts from checksum 0 and folds
    `checksum ← int((checksum + r + g + b) · φ) mod 256` over every pixel of
    the clamped region, visiting the pixels in column-major order (columns in
    increasing x, y varying fastest within a column), and returns the final
    fold value. -/
theorem claim_C6_amended_column_order (img : Img) (region : ℤ × ℤ × ℤ × ℤ) :
    calculate_checksum img region = checksumColumnSpec img region := by
  simp only [calculate_checksum, checksumColumnSpec, checksumAccesses]
  split_ifs
  · rfl
  · have h : ∀ (xs ys : List ℕ),
        ((xs.flatMap fun x => ys.map fun y => (x, y)).foldl
          (fun c xy => chkStep c (pixSum (img.px xy.1 xy.2))) 0)
        = xs.foldl (fun c x => ys.foldl
            (fun c2 y => chkStep c2 (pixSum (img.px x y))) c) 0 := by
      intro xs ys
      rw [foldl_flatMap_eq]
      simp only [List.foldl_map]
    exact_mod_cast congrArg Nat.cast (h _ _).symm

/-- C7: for every image and every region 4-tuple — straddling or entirely
    outside the bounds included — every pixel access `calculate_checksum`
    makes lies inside the image, and the returned value depends only on the
    pixels of the clamped sub-region. -/
theorem claim_C7_bounds_clamp (img : Img) (region : ℤ × ℤ × ℤ × ℤ) :
    (∀ xy ∈ checksumAccesses img region, xy.1 < img.width ∧ xy.2 < img.height) ∧
    (∀ img' : Img, img'.width = img.width → img'.height = img.height →
      img'.mode = img.mode →
      (∀ xy ∈ checksumAccesses img region, img'.px xy.1 xy.2 = img.px xy.1 xy.2) →
      calculate_checksum img' region = calculate_checksum img region) := by
  constructor
  · intro xy hxy
    simp only [checksumAccesses, List.mem_flatMap, List.mem_map,
      List.mem_range'_1] at hxy
    obtain ⟨x, hx, y, hy, rfl⟩ := hxy
    refine ⟨?_, ?_⟩ <;> · dsimp only; omega
  · intro img' hw hh hm hagree
    simp only [calculate_checksum, hw, hh, hm]
    split_ifs
    · rfl
    · have h : ∀ (xs ys : List ℕ),
          (∀ x ∈ xs, ∀ y ∈ ys, img'.px x y = img.px x y) →
          xs.foldl (fun c x => ys.foldl
            (fun c2 y => chkStep c2 (pixSum (img'.px x y))) c) 0
          = xs.foldl (fun c x => ys.foldl
              (fun c2 y => chkStep c2 (pixSum (img.px x y))) c) 0 := by
        intro xs ys hpx
        apply foldl_congrOn
        intro x hx acc
        apply foldl_congrOn
        intro y hy acc2
        rw [hpx x hx y hy]
      refine congrArg Nat.cast (h _ _ ?_)
      intro x hx y hy
      have hmem : ((x, y) : ℕ × ℕ) ∈ checksumAccesses img region := by
        simp only [checksumAccesses, List.mem_flatMap, List.mem_map]
        exact ⟨x, hx, y, hy, rfl⟩
      exact hagree (x, y) hmem

/-- C7 witness: a region straddling the right and top edges of a concrete
    3x2 image; all accesses are in bounds and pixels outside the clamped
    region do not affect the checksum. -/
theorem claim_C7_witness :
    (∀ xy ∈ checksumAccesses img3x2 (1, -5, 10, 1),
      xy.1 < img3x2.width ∧ xy.2 < img3x2.height) ∧
    calculate_checksum img3x2B (1, -5, 10, 1) = calculate_checksum img3x2 (1, -5, 10, 1) := by
  have h := claim_C7_bounds_clamp img3x2 (1, -5, 10, 1)
  exact ⟨h.1, h.2 img3x2B rfl rfl rfl (by decide)⟩

/-- C8: for an RGB image of width at least 8 and height at least 1 and any
    8-bit checksum value, `extract_checksum` recovers exactly the value
    `embed_checksum` stored, one bit per red-channel LSB of the pixels
    `(i mod 50, i div 50)` for `i < 8`. -/
theorem claim_C8_checksum_roundtrip (img : Img) (c : ℕ)
    (hm : img.mode = PixMode.RGB) (hw : 8 ≤ img.width) (hh : 1 ≤ img.height)
    (hc : c ≤ 255) :
    extract_checksum (embed_checksum img c) = c := by
  have hlen : (pyFormat08 c).length = 8 := pyFormat08_length c (by omega)
  have hmne : img.mode ≠ PixMode.RGBA := by simp [hm]
  have hdims := embedGo_dims (pyFormat08 c) img 0
  unfold extract_checksum embed_checksum
  rw [if_neg (by rw [hdims.2.2, hm]; simp)]
  rw [if_pos (by rw [hdims.1, hdims.2.1]; exact ⟨hw, hh⟩)]
  have hread : ∀ i, i < 8 →
      ((embedGo img 0 (pyFormat08 c)).px (i % 50) (i / 50)).r % 2
        = (pyFormat08 c).getD i 0 := by
    intro i hi
    have h50 : i % 50 = i := Nat.mod_eq_of_lt (by omega)
    have h500 : i / 50 = 0 := Nat.div_eq_of_lt (by omega)
    rw [h50, h500]
    rw [embedGo_px (pyFormat08 c) img 0 i 0 hmne (by omega)
      (fun j hj => by constructor <;> omega)]
    rw [if_pos (show 0 ≤ 0 * 50 + i ∧ 0 * 50 + i < 0 + (pyFormat08 c).length by
      constructor <;> omega)]
    have hb : (pyFormat08 c).getD i 0 ≤ 1 := by
      have hmem : (pyFormat08 c).getD i 0 ∈ pyFormat08 c := by
        rw [List.getD_eq_getElem _ _ (by omega)]
        exact List.getElem_mem _
      exact pyFormat08_le_one c _ hmem
    have h0 : 0 * 50 + i - 0 = i := by omega
    rw [h0, rUpdLSB_r _ _ hb]
    omega
  have hmap : ((List.range 8).map fun i =>
      ((embedGo img 0 (pyFormat08 c)).px (i % 50) (i / 50)).r % 2)
        = pyFormat08 c := by
    rw [List.map_congr_left (fun i hi => hread i (List.mem_range.1 hi))]
    rw [show (8 : ℕ) = (pyFormat08 c).length from hlen.symm]
    exact map_getD_range _ 0
  rw [hmap, byteVal_pyFormat08]

/-- C8 witness: embedding checksum 170 into a concrete 8x1 RGB image with odd
    red channels and extracting it returns 170. -/
theorem claim_C8_witness : extract_checksum (embed_checksum img8x1 170) = 170 :=
  claim_C8_checksum_roundtrip img8x1 170 rfl (by decide) (by decide) (by decide)

theorem testBit_lsbSet (v b : ℕ) (hb : b ≤ 1) (k : ℕ) (hk : 1 ≤ k) :
    (2 * (v / 2) + b).testBit k = v.testBit k := by
  obtain ⟨j, rfl⟩ : ∃ j, k = j + 1 := ⟨k - 1, by omega⟩
  rw [Nat.testBit_succ, Nat.testBit_succ]
  have h1 : (2 * (v / 2) + b) / 2 = v / 2 := by omega
  rw [h1]

theorem testBit_bit1Set (v b : ℕ) (hb : b ≤ 1) (k : ℕ) (hk : 2 ≤ k) :
    (4 * (v / 4) + 2 * b).testBit k = v.testBit k := by
  obtain ⟨j, rfl⟩ : ∃ j, k = j + 2 := ⟨k - 2, by omega⟩
  simp only [show j + 2 = (j + 1) + 1 from rfl, Nat.testBit_succ]
  have h1 : (4 * (v / 4) + 2 * b) / 2 / 2 = v / 2 / 2 := by omega
  rw [h1]

/-- C3 counterexample: on a 1x1 RGB image whose red channel is 3 (bits 0 and
    1 set), τ-mode encoding of a bit destroys bit 0 of the red channel — so
    the write does not leave every non-targeted bit of the channel unchanged
    as the claim states for all three variants. -/
theorem claim_C3_counterexample :
    ((SteganoMode.encode_tau img1x1 [255]).2.px 0 0).r = 2 ∧
    Nat.testBit ((SteganoMode.encode_tau img1x1 [255]).2.px 0 0).r 0 ≠
      Nat.testBit (img1x1.px 0 0).r 0 := by
  constructor <;> decide

/-- C3 (amended): for every pixel and every bit b ≤ 1, the ψ write (alpha)
    and the φ write (red) clear exactly the targeted LSB and OR in the bit,
    leaving all higher bits of that channel and all other channels unchanged;
    the τ write to green does the same, but the τ write to red clears BOTH
    bit positions 0 and 1, ORs the payload bit into position 1 and forces
    bit 0 to zero, while bits ≥ 2 are unchanged. -/
theorem claim_C3_amended_bit_effects (p : Pixel) (b : ℕ) (hb : b ≤ 1) :
    ((aUpdLSB p b).a % 2 = b ∧
      (∀ k, 1 ≤ k → ((aUpdLSB p b).a).testBit k = p.a.testBit k) ∧
      (aUpdLSB p b).r = p.r ∧ (aUpdLSB p b).g = p.g ∧ (aUpdLSB p b).b = p.b) ∧
    ((rUpdLSB p b).r % 2 = b ∧
      (∀ k, 1 ≤ k → ((rUpdLSB p b).r).testBit k = p.r.testBit k) ∧
      (rUpdLSB p b).g = p.g ∧ (rUpdLSB p b).b = p.b ∧ (rUpdLSB p b).a = p.a) ∧
    ((tauUpd p b).r % 2 = 0 ∧ (tauUpd p b).r / 2 % 2 = b ∧
      (∀ k, 2 ≤ k → ((tauUpd p b).r).testBit k = p.r.testBit k) ∧
      (tauUpd p b).g % 2 = b ∧
      (∀ k, 1 ≤ k → ((tauUpd p b).g).testBit k = p.g.testBit k) ∧
      (tauUpd p b).b = p.b ∧ (tauUpd p b).a = p.a) := by
  refine ⟨⟨?_, ?_, rfl, rfl, rfl⟩, ⟨?_, ?_, rfl, rfl, rfl⟩,
    ⟨?_, ?_, ?_, ?_, ?_, rfl, rfl⟩⟩
  · rw [aUpdLSB_a p b hb]; omega
  · intro k hk; rw [aUpdLSB_a p b hb]; exact testBit_lsbSet p.a b hb k hk
  · rw [rUpdLSB_r p b hb]; omega
  · intro k hk; rw [rUpdLSB_r p b hb]; exact testBit_lsbSet p.r b hb k hk
  · rw [tauUpd_r p b hb]; omega
  · rw [tauUpd_r p b hb]; omega
  · intro k hk; rw [tauUpd_r p b hb]; exact testBit_bit1Set p.r b hb k hk
  · rw [tauUpd_g p b hb]; omega
  · intro k hk; rw [tauUpd_g p b hb]; exact testBit_lsbSet p.g b hb k hk

/-- C3 witness: the bit-effect description evaluated at pixel (5, 6, 7, 8)
    and bit 1. -/
theorem claim_C3_witness :
    (tauUpd ⟨5, 6, 7, 8⟩ 1).r % 2 = 0 ∧ (tauUpd ⟨5, 6, 7, 8⟩ 1).r / 2 % 2 = 1 ∧
    (aUpdLSB ⟨5, 6, 7, 8⟩ 1).a % 2 = 1 ∧ (rUpdLSB ⟨5, 6, 7, 8⟩ 1).r % 2 = 1 := by
  have h := claim_C3_amended_bit_effects ⟨5, 6, 7, 8⟩ 1 (by decide)
  exact ⟨h.2.2.1, h.2.2.2.1, h.1.1, h.2.1.1⟩

/-- C2: ψ-mode encode on a non-RGBA image returns True yet leaves the
    caller's image unchanged (all alpha-LSB writes land on the discarded
    `convert("RGBA")` copy); and in `QuantumSteganography.encode`, which
    always hands the mode an RGB image, the image that reaches `img.save`
    under ψ therefore has mode RGB and is a fixed point of ψ-encoding — it
    carries none of the payload bits. -/
theorem claim_C2_psi_writes_lost :
    (∀ (img : Img) (d : List ℕ) (ps : Option (List (ℕ × ℕ))),
      img.mode = PixMode.RGB →
      SteganoMode.encode SteganoMode.PSI img d ps = (true, img)) ∧
    (∀ (o : EncodeOracle) (b : Bool) (i : Img),
      encodeTry o SteganoMode.PSI = Except.ok (b, some i) →
      i.mode = PixMode.RGB ∧
      SteganoMode.encode SteganoMode.PSI i o.dataHash none = (true, i)) := by
  have h1 : ∀ (img : Img) (d : List ℕ) (ps : Option (List (ℕ × ℕ))),
      img.mode = PixMode.RGB →
      SteganoMode.encode SteganoMode.PSI img d ps = (true, img) := by
    intro img d ps hm
    simp [SteganoMode.encode, SteganoMode.encode_psi, hm]
  refine ⟨h1, ?_⟩
  intro o b i h
  unfold encodeTry at h
  split at h
  · exact absurd h (by simp)
  · rename_i img0 hload
    split at h
    · exact absurd h (by simp)
    · rename_i img1 htr
      split at h
      · exact absurd h (by simp)
      · split at h
        · exact absurd h (by simp)
        · have henc : SteganoMode.encode SteganoMode.PSI (toRGB img1) o.dataHash none
              = (true, toRGB img1) := h1 (toRGB img1) o.dataHash none rfl
          rw [henc] at h
          simp only [if_true] at h
          split at h
          · exact absurd h (by simp)
          · simp only [Except.ok.injEq, Prod.mk.injEq, Option.some.injEq] at h
            obtain ⟨hb, hi⟩ := h
            subst hi
            exact ⟨rfl, h1 _ _ _ rfl⟩

theorem decodeTail_ok (d : DecodeOracle) (img0 : Img) (m : SteganoMode) (s : List ℕ)
    (h : decodeTail d img0 m = Except.ok s) :
    s = unknownStr ∨ s ∈ fileTypeKeys := by
  unfold decodeTail at h
  split at h
  · exact absurd h (by simp)
  · simp only [Except.ok.injEq] at h
    subst h
    rename_i img1 htr
    cases hf : fileTypeKeys.find? fun ft =>
        d.hashFn ft == SteganoMode.decode m (toRGB img1) with
    | none => left; rfl
    | some v =>
      right
      simpa using List.mem_of_find?_eq_some hf

theorem decodeTry_ok (d : DecodeOracle) (vt : Bool) (m : SteganoMode) (s : List ℕ)
    (h : decodeTry d vt m = Except.ok s) :
    s = unknownStr ∨ s ∈ fileTypeKeys := by
  unfold decodeTry at h
  split at h
  · exact absurd h (by simp)
  · rename_i img0 hload
    by_cases hvt : vt
    · rw [if_pos hvt] at h
      split at h
      · exact absurd h (by simp)
      · exact absurd h (by simp)
      · exact decodeTail_ok d img0 m s h
    · rw [if_neg hvt] at h
      exact decodeTail_ok d img0 m s h

/-- C9: no exception crosses the public codec boundary: whenever the encode
    try-body raises, `QuantumSteganography.encode` returns False (the ethical
    gate can only force False as well); whenever it completes, the public
    result is its success flag (False if the gate rejects); whenever the
    decode try-body raises, `QuantumSteganography.decode` returns the
    sentinel `"unknown"`, and in every case the decode result is either
    `"unknown"` or one of the catalog keys — never an error value. -/
theorem claim_C9_no_exception_escapes :
    (∀ (o : EncodeOracle) (m : SteganoMode) (ec : Bool) (e : ℕ),
      encodeTry o m = Except.error e → pubEncode o m ec = false) ∧
    (∀ (o : EncodeOracle) (m : SteganoMode) (b : Bool) (oi : Option Img),
      encodeTry o m = Except.ok (b, oi) →
      pubEncode o m false = b) ∧
    (∀ (d : DecodeOracle) (vt : Bool) (m : SteganoMode) (e : ℕ),
      decodeTry d vt m = Except.error e → pubDecode d vt m = unknownStr) ∧
    (∀ (d : DecodeOracle) (vt : Bool) (m : SteganoMode),
      pubDecode d vt m = unknownStr ∨ pubDecode d vt m ∈ fileTypeKeys) := by
  refine ⟨?_, ?_, ?_, ?_⟩
  · intro o m ec e h
    unfold pubEncode
    rw [h]
    cases ec
    · rfl
    · cases hv : o.validateContent with
      | error e2 => rfl
      | ok bb => cases bb <;> rfl
  · intro o m b oi h
    unfold pubEncode
    rw [h]
    rfl
  · intro d vt m e h
    unfold pubDecode
    rw [h]
  · intro d vt m
    cases hdec : decodeTry d vt m with
    | error e => left; unfold pubDecode; rw [hdec]
    | ok s =>
      have := decodeTry_ok d vt m s hdec
      unfold pubDecode
      rw [hdec]
      exact this

/-- C9 witness: with a failing image load the public encode returns False and
    the public decode returns `"unknown"`; with all collaborators succeeding
    the public encode reports the mode's success flag (True). -/
theorem claim_C9_witness :
    pubEncode encFailOracle SteganoMode.TAU true = false ∧
    pubEncode encOkOracle SteganoMode.TAU false = true ∧
    pubDecode decFailOracle true SteganoMode.TAU = unknownStr := by
  have h := claim_C9_no_exception_escapes
  exact ⟨h.1 encFailOracle SteganoMode.TAU true 7 rfl,
    h.2.1 encOkOracle SteganoMode.TAU true (some (toRGB img1x1)) rfl,
    h.2.2.1 decFailOracle true SteganoMode.TAU 7 rfl⟩

/-- C2 witness: ψ-encoding a concrete RGB image returns True and the image
    unchanged, and a concrete all-succeeding orchestration run under ψ saves
    an RGB image. -/
theorem claim_C2_witness :
    SteganoMode.encode SteganoMode.PSI imgZ512 payload64 none = (true, imgZ512) ∧
    (toRGB (toRGB img1x1)).mode = PixMode.RGB := by
  have h := claim_C2_psi_writes_lost
  exact ⟨h.1 imgZ512 payload64 none rfl,
    (h.2 encOkOracle true (toRGB (toRGB img1x1)) rfl).1⟩

theorem bitsToBytes_short (l : List ℕ) (h : l.length < 8) : bitsToBytes l = [] := by
  rcases l with _ | ⟨a0, _ | ⟨a1, _ | ⟨a2, _ | ⟨a3, _ | ⟨a4, _ | ⟨a5, _ | ⟨a6, rest⟩⟩⟩⟩⟩⟩⟩
  · rfl
  · rfl
  · rfl
  · rfl
  · rfl
  · rfl
  · rfl
  · cases rest with
    | nil => rfl
    | cons a7 rest2 => simp only [List.length_cons] at h; omega

theorem bitsToBytes_length (l : List ℕ) : (bitsToBytes l).length = l.length / 8 := by
  suffices hgen : ∀ n (l2 : List ℕ), l2.length = n →
      (bitsToBytes l2).length = l2.length / 8 from hgen l.length l rfl
  intro n
  induction n using Nat.strong_induction_on with
  | _ n ih =>
    intro l2 hl
    by_cases h8 : l2.length < 8
    · rw [bitsToBytes_short l2 h8]
      simp only [List.length_nil]
      omega
    · have htl : (l2.take 8).length = 8 := by
        rw [List.length_take]
        omega
      conv_lhs => rw [(List.take_append_drop 8 l2).symm]
      rw [bitsToBytes_append8 _ _ htl]
      have hdl : (l2.drop 8).length = l2.length - 8 := by simp
      have ihd := ih (l2.length - 8) (by omega) (l2.drop 8) hdl
      simp only [List.length_cons, ihd, hdl]
      omega

theorem bitsToBytes_range_chunks (n : ℕ) (g : ℕ → ℕ) :
    bitsToBytes ((List.range (8 * n)).map g)
      = (List.range n).map fun j => byteVal ((List.range 8).map fun k => g (8 * j + k)) := by
  induction n generalizing g with
  | zero => rfl
  | succ m ihm =>
    rw [show 8 * (m + 1) = 8 + 8 * m by ring, List.range_add, List.map_append,
      List.map_map]
    rw [bitsToBytes_append8 _ _ (by simp)]
    rw [ihm (g ∘ (fun x => 8 + x))]
    rw [List.range_succ_eq_map m, List.map_cons, List.map_map]
    congr 1
    apply List.map_congr_left
    intro j _
    simp only [Function.comp]
    congr 1
    apply List.map_congr_left
    intro k _
    congr 1
    omega

/-- C5: on an RGB image with at least 512 pixels, φ- and τ-mode decode read
    one bit from each of the first 512 pixels in raster order (x fastest,
    rows in increasing y), group them into 8-bit most-significant-bit-first
    chunks, and return exactly 64 byte values, byte j coming from bits
    8j..8j+7; on any RGB image the result length is
    min 512 (width·height) / 8 — a trailing group shorter than 8 bits is
    discarded. -/
theorem claim_C5_decode_window (img : Img) (hm : img.mode = PixMode.RGB) :
    (512 ≤ img.width * img.height →
      SteganoMode.decode_phi img = (List.range 64).map (fun j =>
        byteVal ((List.range 8).map fun k =>
          (img.px ((8 * j + k) % img.width) ((8 * j + k) / img.width)).r % 2)) ∧
      SteganoMode.decode_tau img = (List.range 64).map (fun j =>
        byteVal ((List.range 8).map fun k =>
          (img.px ((8 * j + k) % img.width) ((8 * j + k) / img.width)).r / 2 % 2))) ∧
    (SteganoMode.decode_phi img).length = min 512 (img.width * img.height) / 8 ∧
    (SteganoMode.decode_tau img).length = min 512 (img.width * img.height) / 8 := by
  have hne : ¬(img.mode = PixMode.RGBA) := by simp [hm]
  have hphi : SteganoMode.decode_phi img
      = bitsToBytes (((List.range (img.width * img.height)).map fun i =>
          (img.px (i % img.width) (i / img.width)).r % 2).take 512) := by
    rw [SteganoMode.decode_phi, if_neg hne, rasterSeq_eq]
  have htau : SteganoMode.decode_tau img
      = bitsToBytes (((List.range (img.width * img.height)).map fun i =>
          (img.px (i % img.width) (i / img.width)).r / 2 % 2).take 512) := by
    rw [SteganoMode.decode_tau, if_neg hne, rasterSeq_eq]
  refine ⟨?_, ?_, ?_⟩
  · intro hcap
    constructor
    · rw [hphi, take_map_range _ _ _ hcap, show (512 : ℕ) = 8 * 64 from rfl,
        bitsToBytes_range_chunks]
    · rw [htau, take_map_range _ _ _ hcap, show (512 : ℕ) = 8 * 64 from rfl,
        bitsToBytes_range_chunks]
  · rw [hphi, bitsToBytes_length, List.length_take, List.length_map,
      List.length_range]
  · rw [htau, bitsToBytes_length, List.length_take, List.length_map,
      List.length_range]

/-- C5 witness: on the concrete 512x1 all-zero RGB image the φ decode has
    length 64 and equals the byte-grouped raster read. -/
theorem claim_C5_witness :
    (SteganoMode.decode_phi imgZ512).length
      = min 512 (imgZ512.width * imgZ512.height) / 8 ∧
    SteganoMode.decode_phi imgZ512 = (List.range 64).map (fun j =>
      byteVal ((List.range 8).map fun k =>
        (imgZ512.px ((8 * j + k) % imgZ512.width) ((8 * j + k) / imgZ512.width)).r % 2)) := by
  have h := claim_C5_decode_window imgZ512 rfl
  exact ⟨h.2.1, (h.1 (by decide)).1⟩

theorem zip_take_len {α β : Type} (ps : List α) (bs : List β) :
    ps.zip bs = ps.zip (bs.take ps.length) := by
  induction ps generalizing bs with
  | nil => simp
  | cons a rest ih =>
    cases bs with
    | nil => simp
    | cons b brest =>
      rw [List.length_cons, List.take_succ_cons, List.zip_cons_cons,
        List.zip_cons_cons, ← ih]

theorem phiPosGo_dims :
    ∀ (pairs : List ((ℕ × ℕ) × ℕ)) (img : Img),
      (SteganoMode.phiPosGo img pairs).2.width = img.width ∧
      (SteganoMode.phiPosGo img pairs).2.height = img.height ∧
      (SteganoMode.phiPosGo img pairs).2.mode = img.mode := by
  intro pairs
  induction pairs with
  | nil => intro img; exact ⟨rfl, rfl, rfl⟩
  | cons p rest ih =>
    intro img
    obtain ⟨xy, bit⟩ := p
    rw [SteganoMode.phiPosGo]
    by_cases hg : xy.1 < img.width ∧ xy.2 < img.height
    · rw [if_pos hg]; exact ih _
    · rw [if_neg hg]; exact ⟨rfl, rfl, rfl⟩

theorem phiPosGo_true :
    ∀ (pairs : List ((ℕ × ℕ) × ℕ)) (img : Img),
      (∀ p ∈ pairs, p.1.1 < img.width ∧ p.1.2 < img.height) →
      (SteganoMode.phiPosGo img pairs).1 = true := by
  intro pairs
  induction pairs with
  | nil => intro img _; rfl
  | cons p rest ih =>
    intro img h
    obtain ⟨xy, bit⟩ := p
    rw [SteganoMode.phiPosGo, if_pos (h (xy, bit) (by simp))]
    exact ih _ fun q hq => h q (by simp [hq])

theorem phiPosGo_frame :
    ∀ (pairs : List ((ℕ × ℕ) × ℕ)) (img : Img) (x y : ℕ),
      ((x, y) : ℕ × ℕ) ∉ pairs.map Prod.fst →
      (SteganoMode.phiPosGo img pairs).2.px x y = img.px x y := by
  intro pairs
  induction pairs with
  | nil => intro img x y _; rfl
  | cons p rest ih =>
    intro img x y hnot
    obtain ⟨xy, bit⟩ := p
    simp only [List.map_cons, List.mem_cons, not_or] at hnot
    obtain ⟨hne, hrest⟩ := hnot
    rw [SteganoMode.phiPosGo]
    by_cases hg : xy.1 < img.width ∧ xy.2 < img.height
    · rw [if_pos hg, ih _ x y hrest]
      simp only [setPix]
      rw [if_neg]
      rintro ⟨rfl, rfl⟩
      exact hne (Prod.ext rfl rfl).symm
    · rw [if_neg hg]

theorem seqEncode_px_frame (upd : Pixel → ℕ → Pixel) (img : Img) (bits : List ℕ)
    (x y : ℕ) (hx : x < img.width)
    (ht : min bits.length (img.width * img.height) ≤ y * img.width + x) :
    (seqEncode upd img bits).px x y = img.px x y := by
  rw [seqEncode, seqGo_px upd _ img 0 x y hx, if_neg]
  simp only [List.length_take]
  omega

/-- C4: the four embedding paths truncate silently and never report failure
    on a capacity shortfall: ψ always returns True; φ-sequential and τ return
    True on non-RGBA images; every sequential embedding equals the embedding
    of the bitstream truncated at width·height; pixels whose raster index is
    at or beyond min(bit-length, capacity) keep their original value in all
    three sequential variants; and with an explicit non-empty position list,
    in-bounds positions give True, only the first len(positions) bits are
    consumed (`zip` truncation), and coordinates outside the written position
    list keep their original pixel value. -/
theorem claim_C4_truncation (img : Img) (d : List ℕ) (ps : List (ℕ × ℕ)) :
    ((SteganoMode.encode_psi img d).1 = true) ∧
    (img.mode ≠ PixMode.RGBA →
      (SteganoMode.encode_phi img d none).1 = true ∧
      (SteganoMode.encode_tau img d).1 = true) ∧
    (∀ (upd : Pixel → ℕ → Pixel) (bits : List ℕ),
      seqEncode upd img bits = seqEncode upd img (bits.take (img.width * img.height))) ∧
    (img.mode ≠ PixMode.RGBA → ∀ x y, x < img.width →
      min (strBits d).length (img.width * img.height) ≤ y * img.width + x →
      (SteganoMode.encode_tau img d).2.px x y = img.px x y ∧
      (SteganoMode.encode_phi img d none).2.px x y = img.px x y) ∧
    (img.mode = PixMode.RGBA → ∀ x y, x < img.width →
      min (strBits d).length (img.width * img.height) ≤ y * img.width + x →
      (SteganoMode.encode_psi img d).2.px x y = img.px x y) ∧
    (img.mode ≠ PixMode.RGBA → ps ≠ [] →
      ((∀ p ∈ ps, p.1 < img.width ∧ p.2 < img.height) →
        (SteganoMode.encode_phi img d (some ps)).1 = true) ∧
      ps.zip (strBits d) = ps.zip ((strBits d).take ps.length) ∧
      (∀ x y, ((x, y) : ℕ × ℕ) ∉ (ps.zip (strBits d)).map Prod.fst →
        (SteganoMode.encode_phi img d (some ps)).2.px x y = img.px x y)) := by
  have hpos : ∀ hne : img.mode ≠ PixMode.RGBA, ps ≠ [] →
      SteganoMode.encode_phi img d (some ps)
        = SteganoMode.phiPosGo img (ps.zip (strBits d)) := by
    intro hne hps
    rw [SteganoMode.encode_phi, if_pos hps, if_neg (by simp [hne])]
  refine ⟨?_, ?_, ?_, ?_, ?_, ?_⟩
  · rw [SteganoMode.encode_psi]
    split_ifs <;> rfl
  · intro hne
    constructor
    · rw [SteganoMode.encode_phi, SteganoMode.encode_phi_seq,
        if_neg (by simp [hne])]
    · rw [SteganoMode.encode_tau, if_neg (by simp [hne])]
  · intro upd bits
    rw [seqEncode, seqEncode, List.take_take, min_self]
  · intro hne x y hx ht
    constructor
    · rw [SteganoMode.encode_tau, if_neg (by simp [hne])]
      exact seqEncode_px_frame _ _ _ x y hx ht
    · rw [SteganoMode.encode_phi, SteganoMode.encode_phi_seq,
        if_neg (by simp [hne])]
      exact seqEncode_px_frame _ _ _ x y hx ht
  · intro hmA x y hx ht
    rw [SteganoMode.encode_psi, if_pos hmA]
    exact seqEncode_px_frame _ _ _ x y hx ht
  · intro hne hps
    refine ⟨?_, zip_take_len ps (strBits d), ?_⟩
    · intro hin
      rw [hpos hne hps]
      apply phiPosGo_true
      intro p hp
      exact hin p.1 (List.of_mem_zip hp).1
    · intro x y hnot
      rw [hpos hne hps]
      exact phiPosGo_frame _ img x y hnot

/-- C4 witness: on a concrete 8x1 RGB image with an 8-bit payload, τ and
    sequential φ report success, the pixel at raster index 8 (beyond the
    written range) is untouched, and a concrete in-bounds position list
    reports success while an unlisted coordinate keeps its pixel. -/
theorem claim_C4_witness :
    (SteganoMode.encode_tau img8x1 [255]).1 = true ∧
    (SteganoMode.encode_phi img8x1 [255] none).1 = true ∧
    (SteganoMode.encode_tau img8x1 [255]).2.px 0 1 = img8x1.px 0 1 ∧
    (SteganoMode.encode_phi img8x1 [255] (some [(0, 0), (2, 0)])).1 = true ∧
    (SteganoMode.encode_phi img8x1 [255] (some [(0, 0), (2, 0)])).2.px 5 0
      = img8x1.px 5 0 := by
  have h := claim_C4_truncation img8x1 [255] [(0, 0), (2, 0)]
  have h2 := h.2.1 (by decide)
  have h4 := h.2.2.2.1 (by decide) 0 1 (by decide) (by decide)
  have h6 := h.2.2.2.2.2 (by decide) (by decide)
  exact ⟨h2.2, h2.1, h4.1, h6.1 (by decide), h6.2.2 5 0 (by decide)⟩

theorem seq_roundtrip (upd : Pixel → ℕ → Pixel) (ext : Pixel → ℕ)
    (hcompat : ∀ p b, b ≤ 1 → ext (upd p b) = b)
    (img : Img) (bits : List ℕ) (hbits : ∀ b ∈ bits, b ≤ 1)
    (hlen : bits.length = 512) (hcap : 512 ≤ img.width * img.height) :
    (rasterSeq (seqEncode upd img bits).width (seqEncode upd img bits).height
      fun x y => ext ((seqEncode upd img bits).px x y)).take 512 = bits := by
  have hw : 0 < img.width := by
    by_contra h
    have h0 : img.width = 0 := by omega
    rw [h0] at hcap
    simp at hcap
  have hdims := seqGo_dims upd (bits.take (img.width * img.height)) img 0
  rw [show (seqEncode upd img bits).width = img.width from hdims.1,
    show (seqEncode upd img bits).height = img.height from hdims.2.1,
    rasterSeq_eq, take_map_range _ _ _ hcap]
  have htake : bits.take (img.width * img.height) = bits :=
    List.take_of_length_le (by omega)
  have hpoint : ∀ i ∈ List.range 512,
      ext ((seqEncode upd img bits).px (i % img.width) (i / img.width))
        = bits.getD i 0 := by
    intro i hi
    have hi512 : i < 512 := List.mem_range.1 hi
    have hxlt : i % img.width < img.width := Nat.mod_lt _ hw
    rw [seqEncode, seqGo_px upd _ img 0 _ _ hxlt, htake]
    have hti : (i / img.width) * img.width + i % img.width = i := by
      rw [show (i / img.width) * img.width + i % img.width
          = img.width * (i / img.width) + i % img.width by ring]
      exact Nat.div_add_mod i img.width
    rw [hti, if_pos (by omega)]
    have hbit : bits.getD (i - 0) 0 ≤ 1 := by
      have hmem : bits.getD (i - 0) 0 ∈ bits := by
        rw [List.getD_eq_getElem _ _ (by omega)]
        exact List.getElem_mem _
      exact hbits _ hmem
    rw [hcompat _ _ hbit]
    simp
  rw [List.map_congr_left hpoint,
    show (512 : ℕ) = bits.length from hlen.symm]
  exact map_getD_range bits 0

set_option maxRecDepth 40000 in
/-- C1 counterexample: on a 512-pixel all-zero RGB image, (a) the ψ round
    trip fails outright — encode reports success but decode returns the
    empty string, because ψ-encode writes to a discarded RGBA copy and
    ψ-decode rejects non-RGBA images; and (b) the φ round trip on the
    1-byte payload "a" returns a 64-byte string, not the payload, because
    decode always reads a 512-bit window. -/
theorem claim_C1_counterexample :
    (SteganoMode.encode SteganoMode.PSI imgZ512 [97] none).1 = true ∧
    SteganoMode.decode SteganoMode.PSI
      (SteganoMode.encode SteganoMode.PSI imgZ512 [97] none).2 = [] ∧
    SteganoMode.decode SteganoMode.PHI
      (SteganoMode.encode SteganoMode.PHI imgZ512 [97] none).2 ≠ [97] := by
  refine ⟨rfl, rfl, ?_⟩
  decide

/-- C1 (amended): for every image providing at least 512 pixel bit-positions
    and every payload of exactly 64 bytes (each code point below 256), the
    within-mode round trip recovers the payload: φ and τ on RGB images, and
    ψ on RGBA images, where its in-place alpha writes are preserved. -/
theorem claim_C1_amended_roundtrip (img : Img) (payload : List ℕ)
    (h64 : payload.length = 64) (hbytes : ∀ c ∈ payload, c < 256)
    (hcap : 512 ≤ img.width * img.height) :
    (img.mode = PixMode.RGB →
      SteganoMode.decode_phi (SteganoMode.encode_phi img payload none).2 = payload ∧
      SteganoMode.decode_tau (SteganoMode.encode_tau img payload).2 = payload) ∧
    (img.mode = PixMode.RGBA →
      SteganoMode.decode_psi (SteganoMode.encode_psi img payload).2 = payload) := by
  have hlen : (strBits payload).length = 512 := by
    rw [strBits_length payload hbytes, h64]
  have hbits := strBits_le_one payload
  constructor
  · intro hm
    have hne : ¬(img.mode = PixMode.RGBA) := by simp [hm]
    constructor
    · rw [SteganoMode.encode_phi, SteganoMode.encode_phi_seq,
        if_neg (by simp [hne])]
      have hmode : (seqEncode rUpdLSB img (strBits payload)).mode = img.mode :=
        (seqGo_dims _ _ img 0).2.2
      rw [SteganoMode.decode_phi, if_neg (by rw [hmode]; exact hne)]
      have hrt := seq_roundtrip rUpdLSB (fun p => p.r % 2)
        (fun p b hb => by simp only [rUpdLSB_r p b hb]; omega) img (strBits payload)
        hbits hlen hcap
      rw [hrt, bitsToBytes_strBits payload hbytes]
    · rw [SteganoMode.encode_tau, if_neg (by simp [hne])]
      have hmode : (seqEncode tauUpd img (strBits payload)).mode = img.mode :=
        (seqGo_dims _ _ img 0).2.2
      rw [SteganoMode.decode_tau, if_neg (by rw [hmode]; exact hne)]
      have hrt := seq_roundtrip tauUpd (fun p => p.r / 2 % 2)
        (fun p b hb => by simp only [tauUpd_r p b hb]; omega) img (strBits payload)
        hbits hlen hcap
      rw [hrt, bitsToBytes_strBits payload hbytes]
  · intro hm
    rw [SteganoMode.encode_psi, if_pos hm]
    have hmode : (seqEncode aUpdLSB img (strBits payload)).mode = img.mode :=
      (seqGo_dims _ _ img 0).2.2
    rw [SteganoMode.decode_psi, if_pos (by rw [hmode]; exact hm)]
    have hrt := seq_roundtrip aUpdLSB (fun p => p.a % 2)
      (fun p b hb => by simp only [aUpdLSB_a p b hb]; omega) img (strBits payload)
      hbits hlen hcap
    rw [hrt, bitsToBytes_strBits payload hbytes]

set_option maxRecDepth 40000 in
/-- C1 witness: the τ round trip on a concrete 512x1 RGB image and the ψ
    round trip on a concrete 512x1 RGBA image, both with a concrete 64-byte
    payload, recover the payload. -/
theorem claim_C1_witness :
    SteganoMode.decode_tau (SteganoMode.encode_tau imgZ512 payload64).2 = payload64 ∧
    SteganoMode.decode_psi (SteganoMode.encode_psi imgA512 payload64).2 = payload64 := by
  have h1 := claim_C1_amended_roundtrip imgZ512 payload64
    (by decide) (by decide) (by decide)
  have h2 := claim_C1_amended_roundtrip imgA512 payload64
    (by decide) (by decide) (by decide)
  exact ⟨(h1.1 rfl).2, h2.2 rfl⟩
